/-
Verification of the global-explanation engines of `survInterpretability`
(`src/global_explaination.py`): partial dependence plots (PDP), permutation
feature importance (PFI), accumulated local effects (ALE), and the two
unimplemented capabilities (feature interaction, functional decomposition).

Shallow embedding conventions:
* DataFrames with named columns are association lists `List (String × List ℚ)`
  (column name ↦ column values); numeric cell values are exact rationals.
* External collaborators that live outside the verified file
  (`performance.evaluate`, `src.prediction.predict`, the ICE generator) are
  taken as function parameters whose shape follows the documented interface
  contract (`evaluate -> table[time, perf]`, `predict -> table[row, time,
  pred]` in row-major order, `ICE -> table[grid_value, time, sample, pred]`).
* `np.random.shuffle` is modelled by an oracle parameter supplying, for each
  (feature, repeat) pair, the shuffled content of the extracted column.
* A Python function that can raise is embedded as `Except String _`.
* numpy float division by an exact zero is modelled by the `RVal` type below
  (finite value, signed infinity, or NaN), which captures the IEEE-754
  behaviour of `x / 0` exactly (no rounding is involved in that case).
-/
import Mathlib

namespace SurvGlobal

/-- Result of a numpy floating-point division: a finite (exact rational)
value, a signed infinity (`inf true` = negative infinity), or NaN. -/
inductive RVal where
  | fin : ℚ → RVal
  | inf : Bool → RVal
  | nan : RVal
  deriving DecidableEq, Repr

/-- Whether an `RVal` is a finite number. -/
def RVal.isFinite : RVal → Bool
  | .fin _ => true
  | _ => false

/-- numpy division of two finite values: ordinary division when the
denominator is nonzero, otherwise a signed infinity (or NaN for `0 / 0`),
exactly as IEEE-754 division by zero behaves. -/
def rdiv (x y : ℚ) : RVal :=
  if y ≠ 0 then .fin (x / y)
  else if x > 0 then .inf false
  else if x < 0 then .inf true
  else .nan

/-- A pandas DataFrame of numeric columns: ordered association list from
column name to the column's values. -/
abbrev Table := List (String × List ℚ)

/-- `df[c].values`: the values of column `c` (empty when absent, which the
Python code never relies on). -/
def getCol (df : Table) (c : String) : List ℚ :=
  (df.lookup c).getD []

/-- `df[c] = v`: replace the values of the (existing) column `c`. -/
def setCol (df : Table) (c : String) (v : List ℚ) : Table :=
  df.map (fun p => if p.1 = c then (p.1, v) else p)

/-- `df.columns.values.tolist()`. -/
def colNames (df : Table) : List String :=
  df.map (·.1)

/-- Elementwise sum of two per-time vectors (`a += b` on numpy arrays of
equal length). -/
def addVec (a b : List ℚ) : List ℚ :=
  List.zipWith (· + ·) a b

/-- One row of the PFI result table (`feat`, `times`, `perf`); `times` and
`perf` are numeric after the final `pd.to_numeric` coercion, which the typed
embedding reflects directly. -/
structure PfiRow where
  feat : String
  times : ℚ
  perf : RVal
  deriving DecidableEq, Repr

/-- Embedding of `permutation_feature_importance` from
`src/global_explaination.py`.

* `ev` — modelled from the spec: `performance.evaluate(explainer, df,
  surv_labels, times=eval_times, metric="brier_score")["perf"].values`, the
  per-time loss vector for a feature table at the fixed `eval_times`
  (the evaluator itself lives outside the verified file).
* `shuffle f k col` — the content of `np.random.shuffle`'s output for the
  `k`-th repeat on feature `f` (randomness oracle).  Each repeat starts from
  a fresh deep copy of the original column, exactly as line
  `feat_perm = feats.copy(deep=True)[feat_name].values` does.

When `loss ≠ "brier_score"` the `if` body is skipped and line
`feat_importance_df[["times", "perf"]] = ...` hits an unbound local
variable, so the call raises (`.error`).  When `loss = "brier_score"` but
`type ≠ "ratio"` nothing is ever appended and the empty table is returned. -/
def permutation_feature_importance
    (ev : Table → List ℚ) (shuffle : String → ℕ → List ℚ → List ℚ)
    (feats : Table) (eval_times : List ℚ) (n_perm : ℕ)
    (loss type : String) : Except String (List PfiRow) :=
  if loss = "brier_score" then
    let bs_perf := ev feats
    let feats_name := colNames feats
    let n_eval_times := eval_times.length
    .ok <| feats_name.flatMap (fun feat_name =>
      let bs_perf_perm := (List.range n_perm).foldl
        (fun acc k =>
          let feat_perm := shuffle feat_name k (getCol feats feat_name)
          let feats_perm_df := setCol feats feat_name feat_perm
          let tmp := ev feats_perm_df
          addVec acc (tmp.map (fun x => (1 / (n_perm : ℚ)) * x)))
        (List.replicate n_eval_times (0 : ℚ))
      if type = "ratio" then
        (eval_times.zip (List.zipWith rdiv bs_perf bs_perf_perm)).map
          (fun p => ⟨feat_name, p.1, p.2⟩)
      else [])
  else
    .error "UnboundLocalError: feat_importance_df"

/-- The accumulated permuted loss for one feature: the value of
`bs_perf_perm` after the inner loop of `permutation_feature_importance`. -/
def bsPerfPerm (ev : Table → List ℚ) (shuffle : String → ℕ → List ℚ → List ℚ)
    (feats : Table) (n_eval_times n_perm : ℕ) (feat_name : String) : List ℚ :=
  (List.range n_perm).foldl
    (fun acc k =>
      addVec acc ((ev (setCol feats feat_name
        (shuffle feat_name k (getCol feats feat_name)))).map
        (fun x => (1 / (n_perm : ℚ)) * x)))
    (List.replicate n_eval_times (0 : ℚ))

/-- Concrete evaluator used by the witnesses: the per-time loss is the sum of
column "x" (one evaluation time). -/
def evW : Table → List ℚ := fun df => [(getCol df "x").sum]

/-- Concrete shuffle oracle used by the witnesses: reverse the column. -/
def shuffleW : String → ℕ → List ℚ → List ℚ := fun _ _ col => col.reverse

/-- Concrete feature table used by the witnesses. -/
def featsW : Table := [("x", [1, 2])]

/-- Modelled from the spec: one row of the ICE generator's output table
(`individual_conditional_expectation` lives outside the verified file);
columns are grid value `X`, evaluation time `times`, sampled-observation
identity, and the prediction `pred`. -/
structure IceRow where
  X : ℚ
  times : ℚ
  id : ℕ
  pred : ℚ
  deriving DecidableEq, Repr

/-- One row of the PDP result table: exactly the columns `X`, `times`,
`pred` selected by `reset_index()[["X", "times", "pred"]]`. -/
structure PdpRow where
  X : ℚ
  times : ℚ
  pred : ℚ
  deriving DecidableEq, Repr

/-- pandas group order for `groupby`: the distinct keys, sorted ascending. -/
def sortedKeys {κ : Type} [LinearOrder κ] [DecidableEq κ] (ks : List κ) : List κ :=
  ks.dedup.insertionSort (· ≤ ·)

/-- pandas `df.groupby(key)[val].mean()`: one output row per distinct key in
sorted order, carrying the arithmetic mean of `val` over that key's group. -/
def groupMean {α κ : Type} [LinearOrder κ] [DecidableEq κ]
    (key : α → κ) (val : α → ℚ) (xs : List α) : List (κ × ℚ) :=
  (sortedKeys (xs.map key)).map (fun k =>
    (k, ((xs.filter (fun a => key a = k)).map val).sum /
        ((xs.filter (fun a => key a = k)).length : ℚ)))

/-- Embedding of `partial_dependence_plots`: group the ICE table by
`['X', 'times']` (lexicographic key, as pandas sorts group keys), take the
mean of `pred` per group, and keep exactly the columns `X`, `times`,
`pred`. -/
def partial_dependence_plots (ICE_df : List IceRow) : List PdpRow :=
  (groupMean (fun r => toLex (r.X, r.times)) (fun r => r.pred) ICE_df).map
    (fun p => ⟨(ofLex p.1).1, (ofLex p.1).2, p.2⟩)

/-- Concrete ICE table used by the PDP witness: two observations sharing the
grid point `X = 0` at time `1`, with predictions `2` and `4`. -/
def iceW : List IceRow := [⟨0, 1, 0, 2⟩, ⟨0, 1, 1, 4⟩]

/-- The explainer as the ALE engine sees it: the reference dataset with the
selected feature's value split out of each row (first component; `ρ` holds
the row's remaining columns), and the label array whose rows are
(observed event time, event indicator). -/
structure Explainer (ρ : Type) where
  data : List (ℚ × ρ)
  label : List (ℚ × ℚ)

instance {ρ : Type} : IsTotal (ℚ × ρ) (fun u v => u.1 ≤ v.1) :=
  ⟨fun a b => le_total a.1 b.1⟩

instance {ρ : Type} : IsTrans (ℚ × ρ) (fun u v => u.1 ≤ v.1) :=
  ⟨fun _ _ _ => le_trans⟩

/-- `data.sort_values(by=[selected_features])`: rows sorted ascending by the
selected feature's value. -/
def ale_sorted_data {ρ : Type} (data : List (ℚ × ρ)) : List (ℚ × ρ) :=
  data.insertionSort (fun u v => u.1 ≤ v.1)

/-- `var_values = data[selected_features].values` (after the sort). -/
def ale_var_values {ρ : Type} (data : List (ℚ × ρ)) : List ℚ :=
  (ale_sorted_data data).map (·.1)

/-- `qt_list = np.arange(0., 1.01, 0.1)`: the 11 decile levels. -/
def qt_list : List ℚ :=
  [0, 1/10, 2/10, 3/10, 4/10, 5/10, 6/10, 7/10, 8/10, 9/10, 1]

/-- `np.quantile(xs, q)` with the default linear interpolation, for `xs`
already sorted ascending: with `h = q*(n-1)`, interpolate between the
values at positions `⌊h⌋` and `⌊h⌋ + 1`. -/
def npQuantile (xs : List ℚ) (q : ℚ) : ℚ :=
  let n := xs.length
  let h := q * ((n : ℚ) - 1)
  let i := (⌊h⌋).toNat
  let a := xs.getD i 0
  let b := xs.getD (i + 1) a
  a + (h - (i : ℚ)) * (b - a)

/-- `grid_qt_values = np.quantile(var_values, qt_list)`. -/
def ale_grid {ρ : Type} (data : List (ℚ × ρ)) : List ℚ :=
  qt_list.map (npQuantile (ale_var_values data))

/-- Helper for `np.abs(gs - v).argmin()`: fold keeping the first index of
the smallest absolute difference seen so far. -/
def argminAbsAux (v : ℚ) : List ℚ → ℕ → ℕ × ℚ → ℕ
  | [], _, best => best.1
  | g :: gs, i, best =>
      if |g - v| < best.2 then argminAbsAux v gs (i + 1) (i, |g - v|)
      else argminAbsAux v gs (i + 1) best

/-- `np.abs(gs - v).argmin()`: first index attaining the minimal absolute
difference (`0` on the empty list, which numpy instead rejects). -/
def argminAbs (gs : List ℚ) (v : ℚ) : ℕ :=
  match gs with
  | [] => 0
  | g :: gs => argminAbsAux v gs 1 (0, |g - v|)

/-- `var_values_idx = [min(np.abs(grid - var).argmin(), len(qt_list) - 2)
for var in var_values]`. -/
def ale_idx {ρ : Type} (data : List (ℚ × ρ)) : List ℕ :=
  (ale_var_values data).map
    (fun x => min (argminAbs (ale_grid data) x) (qt_list.length - 2))

/-- `var_lower = [grid_qt_values[i] for i in var_values_idx]`. -/
def ale_var_lower {ρ : Type} (data : List (ℚ × ρ)) : List ℚ :=
  (ale_idx data).map (fun i => (ale_grid data).getD i 0)

/-- `var_upper = [grid_qt_values[i + 1] for i in var_values_idx]`. -/
def ale_var_upper {ρ : Type} (data : List (ℚ × ρ)) : List ℚ :=
  (ale_idx data).map (fun i => (ale_grid data).getD (i + 1) 0)

/-- `data_lower`: a deep copy of the sorted data whose selected-feature
column is replaced by `var_lower`. -/
def ale_data_lower {ρ : Type} (data : List (ℚ × ρ)) : List (ℚ × ρ) :=
  List.zipWith (fun l r => (l, r.2)) (ale_var_lower data) (ale_sorted_data data)

/-- `data_upper`: a deep copy of the sorted data whose selected-feature
column is replaced by `var_upper`. -/
def ale_data_upper {ρ : Type} (data : List (ℚ × ρ)) : List (ℚ × ρ) :=
  List.zipWith (fun l r => (l, r.2)) (ale_var_upper data) (ale_sorted_data data)

/-- `np.unique`: the distinct values, sorted ascending. -/
def uniqueSorted (xs : List ℚ) : List ℚ :=
  sortedKeys xs

/-- numpy slicing `xs[::step]`: every `step`-th element starting at the
head. -/
def strideBy {α : Type} (step : ℕ) : List α → List α
  | [] => []
  | x :: xs => x :: strideBy step (xs.drop (step - 1))
  termination_by l => l.length
  decreasing_by simp [List.length_drop]; omega

/-- `eval_times = np.unique(explainer.label[:, 0])[10::100]`. -/
def ale_eval_times (label : List (ℚ × ℚ)) : List ℚ :=
  strideBy 100 ((uniqueSorted (label.map (·.1))).drop 10)

/-- Modelled from the spec: the evaluation-time derivation as the spec words
it — "derived by subsampling unique observed event times (every 100th value
starting at index 10)" over the first column of the label array. -/
def spec_eval_times (label : List (ℚ × ℚ)) : List ℚ :=
  strideBy 100 ((uniqueSorted (label.map (·.1))).drop 10)

/-- One row of the per-observation local-effect table `diff_pred`: bin index
`groups`, evaluation time, and prediction difference. -/
structure DiffRow where
  groups : ℕ
  times : ℚ
  pred : ℚ
  deriving DecidableEq, Repr

/-- One row of the ALE result table after the `group_values` column is
attached. -/
structure AleRow where
  groups : ℕ
  times : ℚ
  pred : ℚ
  group_values : ℚ
  deriving DecidableEq, Repr

/-- The per-observation, per-time local effects: `upper_pred − lower_pred`
with `groups = np.repeat(var_values_idx, n_times)` — row-major over
(observation, evaluation time), following the prediction adapter's
documented `table[row, time, pred]` layout.  `pf` is the spec-modelled
`predict` collaborator, already specialized to one output type: it gives the
prediction for (dataset, time, observation index). -/
def ale_diff_rows {ρ : Type} (pf : List (ℚ × ρ) → ℚ → ℕ → ℚ)
    (expl : Explainer ρ) : List DiffRow :=
  (List.range (ale_sorted_data expl.data).length).flatMap (fun j =>
    (ale_eval_times expl.label).map (fun t =>
      ⟨(ale_idx expl.data).getD j 0, t,
        pf (ale_data_upper expl.data) t j - pf (ale_data_lower expl.data) t j⟩))

/-- `ALE_df = diff_pred.groupby(['groups', 'times']).mean()` restricted to
the `pred` column: one row per (bin, time) key in pandas' sorted key
order. -/
def ale_M {ρ : Type} (pf : List (ℚ × ρ) → ℚ → ℕ → ℚ) (expl : Explainer ρ) :
    List ((ℕ ×ₗ ℚ) × ℚ) :=
  groupMean (fun r => toLex (r.groups, r.times)) (fun r => r.pred)
    (ale_diff_rows pf expl)

/-- `group_values = np.repeat(grid_qt_values[:-1], n_times)`. -/
def ale_gv {ρ : Type} (expl : Explainer ρ) : List ℚ :=
  (ale_grid expl.data).dropLast.flatMap
    (fun x => List.replicate (ale_eval_times expl.label).length x)

/-- The shared tail of `accumulated_local_effects_plots` once the output
type has selected a predictor: group the local effects by
`['groups', 'times']`, average, and attach
`group_values = np.repeat(grid_qt_values[:-1], n_times)` — pandas raises a
`ValueError` when that column's length does not match the grouped frame. -/
def ale_body {ρ : Type} (pf : List (ℚ × ρ) → ℚ → ℕ → ℚ)
    (expl : Explainer ρ) : Except String (List AleRow) :=
  if (ale_M pf expl).length = (ale_gv expl).length then
    .ok (List.zipWith (fun m v => ⟨(ofLex m.1).1, (ofLex m.1).2, m.2, v⟩)
      (ale_M pf expl) (ale_gv expl))
  else
    .error "ValueError: Length of values does not match length of index"

/-- Embedding of `accumulated_local_effects_plots`: the two supported output
types call `predict` with the matching type argument; anything else raises
`ValueError("Unsupported")`. -/
def accumulated_local_effects_plots {ρ : Type}
    (p : String → List (ℚ × ρ) → ℚ → ℕ → ℚ) (expl : Explainer ρ)
    (type : String) : Except String (List AleRow) :=
  if type = "survival" then ale_body (p "survival") expl
  else if type = "chf" then ale_body (p "chf") expl
  else .error "Unsupported"

/-- Embedding of `feature_interaction`: unconditionally raises. -/
def feature_interaction {ε : Type} (explainer : ε) : Except String Table :=
  .error "Not supported yet"

/-- Embedding of `functional_decomposition`: unconditionally raises. -/
def functional_decomposition {ε : Type} (explainer : ε) : Except String Table :=
  .error "Not supported yet"

/-- Concrete explainer used by the ALE witnesses: empty dataset (`ρ = Unit`)
and a single labelled observation, so the derived evaluation-time list is
empty. -/
def explW : Explainer Unit := ⟨[], [(1, 1)]⟩

/-- Concrete prediction adapter used by the ALE witnesses. -/
def pW : String → List (ℚ × Unit) → ℚ → ℕ → ℚ := fun _ _ _ _ => 0

/-- Concrete one-row dataset used by the ALE bin-bounds witness. -/
def dataW : List (ℚ × Unit) := [(1, ())]

/-- A heap of pandas frames, for making the copy-before-mutate discipline of
the source explicit: references are indices, and a fresh object (a
`copy(deep=True)` or the new frame `sort_values` returns) is appended at the
end, so its reference is the previous heap length. -/
abbrev Heap := List Table

/-- Dereference (an out-of-range reference yields an empty frame; the
embedded programs only ever use valid references). -/
def hget (h : Heap) (r : ℕ) : Table :=
  h.getD r []

/-- In-place mutation of the frame behind reference `r`. -/
def hset (h : Heap) (r : ℕ) (t : Table) : Heap :=
  h.set r t

/-- One iteration of the PFI permutation loop with aliasing explicit:
`feat_perm = feats.copy(deep=True)[feat_name].values` allocates a fresh
copy, and `np.random.shuffle(feat_perm)` mutates that copy's column in place
through the extracted view; `feats_perm_df = feats.copy(deep=True)`
allocates a second fresh copy, and `feats_perm_df[feat_name] = feat_perm`
writes the shuffled column into it.  The caller's frame `feats_ref` is only
ever read (copied from). -/
def pfi_perm_step (shuffle : String → ℕ → List ℚ → List ℚ)
    (feats_ref : ℕ) (feat_name : String) (k : ℕ) (h : Heap) : Heap :=
  let h1 := h ++ [hget h feats_ref]
  let c1 := h.length
  let h2 := hset h1 c1 (setCol (hget h1 c1) feat_name
    (shuffle feat_name k (getCol (hget h1 c1) feat_name)))
  let h3 := h2 ++ [hget h2 feats_ref]
  let c2 := h2.length
  hset h3 c2 (setCol (hget h3 c2) feat_name (getCol (hget h3 c1) feat_name))

/-- The heap effect of `permutation_feature_importance`: for each feature
column and each of the `n_perm` repeats, run one permutation step; the
evaluator only reads.  (The feature-name list is read from the caller's
frame up front, as `feats.columns.values.tolist()` does.) -/
def permutation_feature_importance_heap
    (shuffle : String → ℕ → List ℚ → List ℚ)
    (feats_ref : ℕ) (n_perm : ℕ) (h : Heap) : Heap :=
  (colNames (hget h feats_ref)).foldl (fun hh f =>
    (List.range n_perm).foldl
      (fun h2 k => pfi_perm_step shuffle feats_ref f k h2) hh) h

/-- The heap effect of `accumulated_local_effects_plots` on the explainer's
dataset: `data = explainer.data.copy(deep=True).sort_values(...)` allocates
a fresh sorted frame (`sortF` is the pure sorting of the content);
`data_lower`/`data_upper` are two further deep copies, and only those copies
have their selected-feature column overwritten (with the pure
`lowerCol`/`upperCol` values computed by reading `data`).  All later steps
(`predict`, the groupby) only read or build new frames. -/
def ale_heap_writes (sortF : Table → Table) (lowerCol upperCol : Table → List ℚ)
    (sf : String) (data_ref : ℕ) (h : Heap) : Heap :=
  let h1 := h ++ [sortF (hget h data_ref)]
  let d := h.length
  let h2 := h1 ++ [hget h1 d]
  let dl := h1.length
  let h3 := h2 ++ [hget h2 d]
  let du := h2.length
  let h4 := hset h3 dl (setCol (hget h3 dl) sf (lowerCol (hget h3 d)))
  hset h4 du (setCol (hget h4 du) sf (upperCol (hget h4 d)))

lemma length_addVec (a b : List ℚ) : (addVec a b).length = min a.length b.length :=
  List.length_zipWith ..

lemma getD_addVec (a b : List ℚ) (i : ℕ) (h1 : i < a.length) (h2 : i < b.length) :
    (addVec a b).getD i 0 = a.getD i 0 + b.getD i 0 := by
  rw [addVec,
      List.getD_eq_getElem _ _ (by simp [List.length_zipWith]; omega),
      List.getD_eq_getElem _ _ h1, List.getD_eq_getElem _ _ h2]
  simp [List.getElem_zipWith]

lemma foldl_addVec_length (vs : List (List ℚ)) (init : List ℚ) (m : ℕ)
    (hinit : init.length = m) (hvs : ∀ v ∈ vs, v.length = m) :
    (vs.foldl addVec init).length = m := by
  induction vs generalizing init with
  | nil => simpa using hinit
  | cons v vs ih =>
      refine ih (addVec init v) ?_ (fun w hw => hvs w (by simp [hw]))
      simp [length_addVec, hinit, hvs v (by simp)]

lemma foldl_addVec_getD (vs : List (List ℚ)) (init : List ℚ) (m i : ℕ)
    (hinit : init.length = m) (hvs : ∀ v ∈ vs, v.length = m) (hi : i < m) :
    (vs.foldl addVec init).getD i 0 =
      init.getD i 0 + (vs.map (fun v => v.getD i 0)).sum := by
  induction vs generalizing init with
  | nil => simp
  | cons v vs ih =>
      have hv : v.length = m := hvs v (by simp)
      have hlen : (addVec init v).length = m := by
        simp [length_addVec, hinit, hv]
      rw [List.foldl_cons, ih (addVec init v) hlen (fun w hw => hvs w (by simp [hw]))]
      have : (addVec init v).getD i 0 = init.getD i 0 + v.getD i 0 :=
        getD_addVec init v i (by omega) (by omega)
      rw [this, List.map_cons, List.sum_cons]
      ring

lemma bsPerfPerm_length (ev : Table → List ℚ) (shuffle : String → ℕ → List ℚ → List ℚ)
    (feats : Table) (m n : ℕ) (f : String) (hEv : ∀ df : Table, (ev df).length = m) :
    (bsPerfPerm ev shuffle feats m n f).length = m := by
  rw [bsPerfPerm, ← List.foldl_map]
  exact foldl_addVec_length _ _ m (by simp) (by simp [hEv])

lemma bsPerfPerm_getD (ev : Table → List ℚ) (shuffle : String → ℕ → List ℚ → List ℚ)
    (feats : Table) (m n : ℕ) (f : String) (i : ℕ)
    (hEv : ∀ df : Table, (ev df).length = m) (hi : i < m) :
    (bsPerfPerm ev shuffle feats m n f).getD i 0 =
      (1 / (n : ℚ)) * ((List.range n).map (fun k =>
        (ev (setCol feats f (shuffle f k (getCol feats f)))).getD i 0)).sum := by
  rw [bsPerfPerm, ← List.foldl_map,
      foldl_addVec_getD _ _ m i (by simp) (by simp [hEv]) hi]
  have hrep : (List.replicate m (0 : ℚ)).getD i 0 = 0 := by
    rw [List.getD_eq_getElem _ 0 (by simpa using hi)]
    simp
  rw [hrep, zero_add, List.map_map, ← List.sum_map_mul_left]
  congr 1
  refine List.map_congr_left (fun k _ => ?_)
  have hlen : (ev (setCol feats f (shuffle f k (getCol feats f)))).length = m := hEv _
  simp only [Function.comp_apply]
  rw [List.getD_eq_getElem _ 0 (by simp [hlen, hi]), List.getElem_map,
      List.getD_eq_getElem _ 0 (by omega)]

/-- Functional characterization of `permutation_feature_importance` in the
supported configuration: one row per (feature, time index), with
`perf = rdiv L_base[i] bs_perf_perm[i]`.  The hypothesis is the interface
contract of the performance evaluator (one loss value per evaluation time). -/
lemma pfi_ratio_char (ev : Table → List ℚ) (shuffle : String → ℕ → List ℚ → List ℚ)
    (feats : Table) (eval_times : List ℚ) (n_perm : ℕ)
    (hEv : ∀ df : Table, (ev df).length = eval_times.length) :
    permutation_feature_importance ev shuffle feats eval_times n_perm
      "brier_score" "ratio" =
    .ok ((colNames feats).flatMap (fun f =>
      (List.range eval_times.length).map (fun i =>
        ⟨f, eval_times.getD i 0, rdiv ((ev feats).getD i 0)
          ((bsPerfPerm ev shuffle feats eval_times.length n_perm f).getD i 0)⟩))) := by
  rw [permutation_feature_importance]
  simp only [↓reduceIte]
  congr 1
  congr 1
  funext f
  have hB : (bsPerfPerm ev shuffle feats eval_times.length n_perm f).length =
      eval_times.length := bsPerfPerm_length _ _ _ _ _ _ hEv
  have hzw : (List.zipWith rdiv (ev feats)
      (bsPerfPerm ev shuffle feats eval_times.length n_perm f)).length =
      eval_times.length := by
    simp [List.length_zipWith, hEv feats, hB]
  rw [bsPerfPerm] at hB hzw
  apply List.ext_getElem
  · simp only [List.length_map, List.length_zip, List.length_range]
    rw [hzw, min_self]
  · intro i h1 h2
    simp only [List.length_map, List.length_zip, hzw, min_self] at h1
    simp only [List.getElem_map, List.getElem_zip, List.getElem_range,
      List.getElem_zipWith]
    have hbase : i < (ev feats).length := by rw [hEv feats]; exact h1
    have hperm : i <
        (bsPerfPerm ev shuffle feats eval_times.length n_perm f).length := by
      rw [bsPerfPerm_length _ _ _ _ _ _ hEv]; exact h1
    rw [List.getD_eq_getElem _ 0 h1, List.getD_eq_getElem _ 0 hbase,
        List.getD_eq_getElem _ 0 hperm]
    rfl

lemma range_map_getD {α β : Type} (l : List α) (d : α) (g : α → β) :
    (List.range l.length).map (fun i => g (l.getD i d)) = l.map g := by
  apply List.ext_getElem
  · simp
  · intro i h1 h2
    simp only [List.length_map, List.length_range] at h1
    simp only [List.getElem_map, List.getElem_range]
    rw [List.getD_eq_getElem _ d h1]

lemma sum_map_const {α : Type} (l : List α) (m : ℕ) :
    (l.map (fun _ => m)).sum = l.length * m := by
  induction l with
  | nil => simp
  | cons a l ih => simp [ih]; ring

lemma getD_replicate {c d : ℚ} {n i : ℕ} (h : i < n) :
    (List.replicate n c).getD i d = c := by
  rw [List.getD_eq_getElem _ d (by simpa using h), List.getElem_replicate]

lemma rdiv_zero_isFinite (x : ℚ) : (rdiv x 0).isFinite = false := by
  rw [rdiv, if_neg (by norm_num)]
  by_cases h1 : x > 0
  · rw [if_pos h1]; rfl
  · rw [if_neg h1]
    by_cases h2 : x < 0
    · rw [if_pos h2]; rfl
    · rw [if_neg h2]; rfl

/-- C2: with `loss="brier_score"` and `type="ratio"`, every returned score is
`L_base[t] / L_perm[f,t]`, where `L_base` is the per-time loss on the
untouched feature table and `L_perm[f,t]` is the arithmetic mean, over the
`n_perm` repeats, of the per-time loss of a copy of the feature table whose
column `f` alone has been shuffled.  The evaluator `ev` and the shuffle
oracle are the spec-modelled external collaborators. -/
theorem pfi_ratio_score_is_base_over_mean_perm
    (ev : Table → List ℚ) (shuffle : String → ℕ → List ℚ → List ℚ)
    (feats : Table) (eval_times : List ℚ) (n_perm : ℕ)
    (_hn : 0 < n_perm)
    (hEv : ∀ df : Table, (ev df).length = eval_times.length) :
    permutation_feature_importance ev shuffle feats eval_times n_perm
      "brier_score" "ratio" =
    .ok ((colNames feats).flatMap (fun f =>
      (List.range eval_times.length).map (fun i =>
        ⟨f, eval_times.getD i 0,
          rdiv ((ev feats).getD i 0)
            ((((List.range n_perm).map (fun k =>
              (ev (setCol feats f (shuffle f k (getCol feats f)))).getD i 0)).sum)
              / (n_perm : ℚ))⟩))) := by
  rw [pfi_ratio_char ev shuffle feats eval_times n_perm hEv]
  congr 1
  congr 1
  funext f
  refine List.map_congr_left (fun i hi => ?_)
  have hi' : i < eval_times.length := List.mem_range.mp hi
  rw [bsPerfPerm_getD ev shuffle feats eval_times.length n_perm f i hEv hi',
      one_div, inv_mul_eq_div]

theorem pfi_ratio_score_witness :
    permutation_feature_importance evW shuffleW featsW [(5 : ℚ)] 2
      "brier_score" "ratio" =
    .ok ((colNames featsW).flatMap (fun f =>
      (List.range [(5 : ℚ)].length).map (fun i =>
        ⟨f, [(5 : ℚ)].getD i 0,
          rdiv ((evW featsW).getD i 0)
            ((((List.range 2).map (fun k =>
              (evW (setCol featsW f (shuffleW f k (getCol featsW f)))).getD i 0)).sum)
              / (2 : ℚ))⟩))) :=
  pfi_ratio_score_is_base_over_mean_perm evW shuffleW featsW [(5 : ℚ)] 2
    (by decide) (fun _ => rfl)

/-- C7: with `loss="brier_score"`, `type="ratio"` and non-empty `eval_times`,
the result has exactly `n_features × n_eval_times` rows, one per
(feature, time) pair in order; `times` and `perf` are numeric by the typing
of `PfiRow` (the embedding of the final `pd.to_numeric` coercion). -/
theorem pfi_result_shape
    (ev : Table → List ℚ) (shuffle : String → ℕ → List ℚ → List ℚ)
    (feats : Table) (eval_times : List ℚ) (n_perm : ℕ)
    (_hne : eval_times ≠ [])
    (hEv : ∀ df : Table, (ev df).length = eval_times.length) :
    ∃ T, permutation_feature_importance ev shuffle feats eval_times n_perm
        "brier_score" "ratio" = .ok T ∧
      T.length = (colNames feats).length * eval_times.length ∧
      T.map (fun r => (r.feat, r.times)) =
        (colNames feats).flatMap (fun f => eval_times.map (fun t => (f, t))) := by
  refine ⟨_, pfi_ratio_char ev shuffle feats eval_times n_perm hEv, ?_, ?_⟩
  · simp only [List.length_flatMap, Function.comp_def, List.length_map,
      List.length_range]
    exact sum_map_const _ _
  · rw [List.map_flatMap]
    congr 1
    funext f
    rw [List.map_map]
    have := range_map_getD eval_times 0 (fun t => (f, t))
    simpa [Function.comp] using this

theorem pfi_result_shape_witness :
    ∃ T, permutation_feature_importance evW shuffleW featsW [(5 : ℚ)] 2
        "brier_score" "ratio" = .ok T ∧
      T.length = (colNames featsW).length * [(5 : ℚ)].length ∧
      T.map (fun r => (r.feat, r.times)) =
        (colNames featsW).flatMap (fun f => [(5 : ℚ)].map (fun t => (f, t))) :=
  pfi_result_shape evW shuffleW featsW [(5 : ℚ)] 2 (by decide) (fun _ => rfl)

/-- C10: with `n_perm = 0` the call succeeds (no error is raised): the
permutation loop never runs, the accumulated permuted loss is identically
zero, every score is the baseline loss divided by zero, and every `perf`
value is non-finite (±infinity, or NaN where the baseline loss is zero). -/
theorem pfi_zero_perm_nonfinite
    (ev : Table → List ℚ) (shuffle : String → ℕ → List ℚ → List ℚ)
    (feats : Table) (eval_times : List ℚ)
    (hEv : ∀ df : Table, (ev df).length = eval_times.length) :
    ∃ T, permutation_feature_importance ev shuffle feats eval_times 0
        "brier_score" "ratio" = .ok T ∧
      (∀ f, bsPerfPerm ev shuffle feats eval_times.length 0 f =
        List.replicate eval_times.length 0) ∧
      T = (colNames feats).flatMap (fun f =>
        (List.range eval_times.length).map (fun i =>
          ⟨f, eval_times.getD i 0, rdiv ((ev feats).getD i 0) 0⟩)) ∧
      ∀ r ∈ T, r.perf.isFinite = false := by
  have hzero : ∀ f, bsPerfPerm ev shuffle feats eval_times.length 0 f =
      List.replicate eval_times.length 0 := by
    intro f
    simp [bsPerfPerm]
  refine ⟨_, pfi_ratio_char ev shuffle feats eval_times 0 hEv, hzero, ?_, ?_⟩
  · congr 1
    funext f
    refine List.map_congr_left (fun i hi => ?_)
    have hi' : i < eval_times.length := List.mem_range.mp hi
    rw [hzero f, getD_replicate hi']
  · intro r hr
    simp only [List.mem_flatMap, List.mem_map] at hr
    obtain ⟨f, -, i, hi, rfl⟩ := hr
    have hi' : i < eval_times.length := List.mem_range.mp hi
    rw [hzero f, getD_replicate hi']
    exact rdiv_zero_isFinite _

theorem pfi_zero_perm_nonfinite_witness :
    ∃ T, permutation_feature_importance evW shuffleW featsW [(5 : ℚ)] 0
        "brier_score" "ratio" = .ok T ∧
      (∀ f, bsPerfPerm evW shuffleW featsW [(5 : ℚ)].length 0 f =
        List.replicate [(5 : ℚ)].length 0) ∧
      T = (colNames featsW).flatMap (fun f =>
        (List.range [(5 : ℚ)].length).map (fun i =>
          ⟨f, [(5 : ℚ)].getD i 0, rdiv ((evW featsW).getD i 0) 0⟩)) ∧
      ∀ r ∈ T, r.perf.isFinite = false :=
  pfi_zero_perm_nonfinite evW shuffleW featsW [(5 : ℚ)] (fun _ => rfl)

/-- C3, failing input: with `loss="brier_score"` and the unsupported
`type="quotient"`, `permutation_feature_importance` runs to completion and
silently returns the empty result table rather than failing. -/
theorem pfi_unsupported_scoring_type_returns_empty :
    permutation_feature_importance evW shuffleW featsW [(5 : ℚ)] 3
      "brier_score" "quotient" = .ok [] := by
  rfl

lemma mem_sortedKeys {κ : Type} [LinearOrder κ] [DecidableEq κ]
    {ks : List κ} {k : κ} : k ∈ sortedKeys ks ↔ k ∈ ks := by
  unfold sortedKeys
  rw [(List.perm_insertionSort _ _).mem_iff, List.mem_dedup]

lemma pairwise_lt_sortedKeys {κ : Type} [LinearOrder κ] [DecidableEq κ]
    (ks : List κ) : (sortedKeys ks).Pairwise (· < ·) := by
  have hn : (sortedKeys ks).Nodup :=
    (List.perm_insertionSort _ _).nodup_iff.mpr (List.nodup_dedup ks)
  have hs : (sortedKeys ks).Sorted (· ≤ ·) := List.sorted_insertionSort _ _
  exact (hs.and hn).imp (fun h => lt_of_le_of_ne h.1 h.2)

lemma mem_groupMean {α κ : Type} [LinearOrder κ] [DecidableEq κ]
    {key : α → κ} {val : α → ℚ} {xs : List α} {p : κ × ℚ}
    (hp : p ∈ groupMean key val xs) :
    (xs.filter (fun a => key a = p.1)) ≠ [] ∧
    p.2 = ((xs.filter (fun a => key a = p.1)).map val).sum /
        ((xs.filter (fun a => key a = p.1)).length : ℚ) := by
  unfold groupMean at hp
  obtain ⟨k, hk, rfl⟩ := List.mem_map.mp hp
  refine ⟨?_, rfl⟩
  obtain ⟨a, ha, rfl⟩ := List.mem_map.mp (mem_sortedKeys.mp hk)
  intro hemp
  have hmem : a ∈ xs.filter (fun a' => key a' = key a) :=
    List.mem_filter.mpr ⟨ha, by simp⟩
  rw [hemp] at hmem
  exact (List.not_mem_nil a) hmem

/-- C4: every row of the `partial_dependence_plots` output is the exact
unweighted arithmetic mean, over the sampled observations, of the ICE
predictions sharing that (grid value, time) group — the group is non-empty —
and the output carries exactly the columns `X`, `times`, `pred` (the
`PdpRow` type).  The ICE table is the spec-modelled external input. -/
theorem pdp_rows_are_group_means (ICE_df : List IceRow) (row : PdpRow)
    (hrow : row ∈ partial_dependence_plots ICE_df) :
    (ICE_df.filter (fun r => r.X = row.X ∧ r.times = row.times)) ≠ [] ∧
    row.pred =
      ((ICE_df.filter (fun r => r.X = row.X ∧ r.times = row.times)).map
        (fun r => r.pred)).sum /
      ((ICE_df.filter (fun r => r.X = row.X ∧ r.times = row.times)).length : ℚ) := by
  unfold partial_dependence_plots at hrow
  obtain ⟨p, hp, rfl⟩ := List.mem_map.mp hrow
  have h := mem_groupMean hp
  have hfe : ICE_df.filter (fun r => decide (toLex (r.X, r.times) = p.1)) =
      ICE_df.filter
        (fun r => decide (r.X = (ofLex p.1).1 ∧ r.times = (ofLex p.1).2)) := by
    refine List.filter_congr (fun r _ => ?_)
    rw [decide_eq_decide]
    constructor
    · intro hx
      rw [← hx]
      exact ⟨rfl, rfl⟩
    · rintro ⟨h1, h2⟩
      have : ((r.X, r.times) : ℚ × ℚ) = ofLex p.1 := by
        exact Prod.ext h1 h2
      calc toLex ((r.X, r.times) : ℚ × ℚ) = toLex (ofLex p.1) := by rw [this]
        _ = p.1 := rfl
  rw [hfe] at h
  exact h

theorem pdp_rows_are_group_means_witness :
    ((⟨0, 1, 3⟩ : PdpRow) ∈ partial_dependence_plots iceW) ∧
    ((iceW.filter (fun r => r.X = (0 : ℚ) ∧ r.times = (1 : ℚ))) ≠ [] ∧
     (3 : ℚ) =
       ((iceW.filter (fun r => r.X = (0 : ℚ) ∧ r.times = (1 : ℚ))).map
         (fun r => r.pred)).sum /
       ((iceW.filter (fun r => r.X = (0 : ℚ) ∧ r.times = (1 : ℚ))).length : ℚ)) :=
  ⟨by
    simp [partial_dependence_plots, groupMean, sortedKeys, iceW,
      List.insertionSort, List.orderedInsert]
    norm_num,
   pdp_rows_are_group_means iceW ⟨0, 1, 3⟩ (by
    simp [partial_dependence_plots, groupMean, sortedKeys, iceW,
      List.insertionSort, List.orderedInsert]
    norm_num)⟩

/-- C9: both unimplemented capabilities deterministically raise their
"unsupported capability" error for every explainer, in every state, and in
particular never produce an `.ok` (partial or empty) result. -/
theorem unimplemented_capabilities_raise {ε : Type} (e : ε) :
    feature_interaction e = (.error "Not supported yet" : Except String Table) ∧
    functional_decomposition e =
      (.error "Not supported yet" : Except String Table) :=
  ⟨rfl, rfl⟩

lemma strideBy_sublist {α : Type} (k : ℕ) :
    (l : List α) → List.Sublist (strideBy k l) l
  | [] => by rw [strideBy]
  | x :: xs => by
      rw [strideBy]
      exact List.Sublist.cons₂ x
        ((strideBy_sublist k (xs.drop (k - 1))).trans (List.drop_sublist _ _))
  termination_by l => l.length
  decreasing_by simp [List.length_drop]; omega

lemma ale_eval_times_pairwise (label : List (ℚ × ℚ)) :
    (ale_eval_times label).Pairwise (· < ·) := by
  have h1 : (uniqueSorted (label.map (·.1))).Pairwise (· < ·) :=
    pairwise_lt_sortedKeys _
  have h2 : ((uniqueSorted (label.map (·.1))).drop 10).Pairwise (· < ·) :=
    List.Pairwise.sublist (List.drop_sublist _ _) h1
  exact List.Pairwise.sublist (strideBy_sublist 100 _) h2

/-- C6: the ALE evaluation times are exactly the spec's derivation — the
sorted unique observed event times (first label column), sliced every 100th
value from index 10 — and they are strictly increasing. -/
theorem ale_eval_times_exact (label : List (ℚ × ℚ)) :
    ale_eval_times label = spec_eval_times label ∧
    (ale_eval_times label).Pairwise (· < ·) :=
  ⟨rfl, ale_eval_times_pairwise label⟩

lemma getD_map_of_lt {α β : Type} (f : α → β) (l : List α) (d : β) {j : ℕ}
    (hj : j < l.length) (dd : α) :
    (l.map f).getD j d = f (l.getD j dd) := by
  rw [List.getD_eq_getElem _ _ (by simpa using hj), List.getElem_map,
      List.getD_eq_getElem _ _ hj]

lemma sorted_get_le {xs : List ℚ} (hs : xs.Sorted (· ≤ ·)) {i j : ℕ}
    (hi : i < xs.length) (hj : j < xs.length) (hij : i ≤ j) :
    xs.get ⟨i, hi⟩ ≤ xs.get ⟨j, hj⟩ := by
  rcases eq_or_lt_of_le hij with rfl | h
  · exact le_refl _
  · exact List.Sorted.rel_get_of_lt hs h

lemma sorted_getD_mono {xs : List ℚ} (hs : xs.Sorted (· ≤ ·)) {i j : ℕ}
    (hij : i ≤ j) (hj : j < xs.length) : xs.getD i 0 ≤ xs.getD j 0 := by
  have hi : i < xs.length := lt_of_le_of_lt hij hj
  rw [List.getD_eq_getElem _ _ hi, List.getD_eq_getElem _ _ hj]
  exact sorted_get_le hs hi hj hij

lemma getD_succ_ge {xs : List ℚ} (hs : xs.Sorted (· ≤ ·)) {i : ℕ}
    (hi : i < xs.length) :
    xs.getD i 0 ≤ xs.getD (i + 1) (xs.getD i 0) := by
  by_cases h : i + 1 < xs.length
  · rw [List.getD_eq_getElem _ _ hi, List.getD_eq_getElem _ _ h]
    exact sorted_get_le hs hi h (Nat.le_succ i)
  · rw [show xs.getD (i + 1) (xs.getD i 0) = xs.getD i 0 from
      List.getD_eq_default _ _ (by omega)]

lemma npQuantile_nil (q : ℚ) : npQuantile [] q = 0 := by
  simp [npQuantile]

lemma npQuantile_eq (xs : List ℚ) (q : ℚ) :
    npQuantile xs q =
      xs.getD (⌊q * ((xs.length : ℚ) - 1)⌋).toNat 0 +
        (q * ((xs.length : ℚ) - 1) -
          ((⌊q * ((xs.length : ℚ) - 1)⌋).toNat : ℚ)) *
        (xs.getD ((⌊q * ((xs.length : ℚ) - 1)⌋).toNat + 1)
            (xs.getD (⌊q * ((xs.length : ℚ) - 1)⌋).toNat 0) -
          xs.getD (⌊q * ((xs.length : ℚ) - 1)⌋).toNat 0) := rfl

lemma floor_toNat_le {h : ℚ} (hh : 0 ≤ h) : ((⌊h⌋.toNat : ℕ) : ℚ) ≤ h := by
  have h0 : (0 : ℤ) ≤ ⌊h⌋ := Int.floor_nonneg.mpr hh
  calc ((⌊h⌋.toNat : ℕ) : ℚ) = ((⌊h⌋ : ℤ) : ℚ) := by
        exact_mod_cast congrArg (fun z : ℤ => (z : ℚ)) (Int.toNat_of_nonneg h0)
    _ ≤ h := Int.floor_le h

lemma lt_floor_toNat_add_one {h : ℚ} (hh : 0 ≤ h) :
    h < ((⌊h⌋.toNat : ℕ) : ℚ) + 1 := by
  have h0 : (0 : ℤ) ≤ ⌊h⌋ := Int.floor_nonneg.mpr hh
  have hc : ((⌊h⌋.toNat : ℕ) : ℚ) = ((⌊h⌋ : ℤ) : ℚ) := by
    exact_mod_cast congrArg (fun z : ℤ => (z : ℚ)) (Int.toNat_of_nonneg h0)
  rw [hc]
  exact Int.lt_floor_add_one h

/-- Monotonicity of the linear interpolation at positions `h₁ ≤ h₂` inside a
sorted list: the value numpy's quantile interpolation produces is monotone
in the position. -/
lemma interp_mono (xs : List ℚ) (hs : xs.Sorted (· ≤ ·)) (h₁ h₂ : ℚ)
    (h10 : 0 ≤ h₁) (h12 : h₁ ≤ h₂) (h2n : h₂ ≤ (xs.length : ℚ) - 1) :
    xs.getD (⌊h₁⌋).toNat 0 + (h₁ - ((⌊h₁⌋).toNat : ℚ)) *
        (xs.getD ((⌊h₁⌋).toNat + 1) (xs.getD (⌊h₁⌋).toNat 0) -
          xs.getD (⌊h₁⌋).toNat 0) ≤
    xs.getD (⌊h₂⌋).toNat 0 + (h₂ - ((⌊h₂⌋).toNat : ℚ)) *
        (xs.getD ((⌊h₂⌋).toNat + 1) (xs.getD (⌊h₂⌋).toNat 0) -
          xs.getD (⌊h₂⌋).toNat 0) := by
  have h20 : 0 ≤ h₂ := le_trans h10 h12
  set n := xs.length with hn
  set i₁ := (⌊h₁⌋).toNat with hi₁
  set i₂ := (⌊h₂⌋).toNat with hi₂
  have hfl₁ : (i₁ : ℚ) ≤ h₁ := floor_toNat_le h10
  have hfl₂ : (i₂ : ℚ) ≤ h₂ := floor_toNat_le h20
  have hlt₁ : h₁ < (i₁ : ℚ) + 1 := lt_floor_toNat_add_one h10
  have hlt₂ : h₂ < (i₂ : ℚ) + 1 := lt_floor_toNat_add_one h20
  have hi₁n : i₁ < n := by
    have hq : (i₁ : ℚ) < (n : ℚ) := by linarith
    exact_mod_cast hq
  have hi₂n : i₂ < n := by
    have hq : (i₂ : ℚ) < (n : ℚ) := by linarith
    exact_mod_cast hq
  have hi₁₂ : i₁ ≤ i₂ := by
    rw [hi₁, hi₂]
    exact Int.toNat_le_toNat (Int.floor_le_floor h12)
  set a₁ := xs.getD i₁ 0 with ha₁
  set b₁ := xs.getD (i₁ + 1) a₁ with hb₁
  set a₂ := xs.getD i₂ 0 with ha₂
  set b₂ := xs.getD (i₂ + 1) a₂ with hb₂
  have hab₁ : a₁ ≤ b₁ := getD_succ_ge hs hi₁n
  have hab₂ : a₂ ≤ b₂ := getD_succ_ge hs hi₂n
  rcases eq_or_lt_of_le hi₁₂ with heq | hlt
  · have e1 : a₂ = a₁ := by rw [ha₂, ha₁, ← heq]
    have e2 : b₂ = b₁ := by rw [hb₂, hb₁, ← heq, e1]
    rw [e1, e2, ← heq]
    nlinarith [hab₁, h12]
  · have hib : i₁ + 1 ≤ i₂ := hlt
    have hbin : i₁ + 1 < n := lt_of_le_of_lt hib hi₂n
    have hb₁val : b₁ = xs.getD (i₁ + 1) 0 := by
      rw [hb₁, List.getD_eq_getElem _ _ hbin, List.getD_eq_getElem _ _ hbin]
    have hv1 : a₁ + (h₁ - (i₁ : ℚ)) * (b₁ - a₁) ≤ b₁ := by
      nlinarith [hab₁, hlt₁, hfl₁]
    have hv2 : a₂ ≤ a₂ + (h₂ - (i₂ : ℚ)) * (b₂ - a₂) := by
      nlinarith [hab₂, hfl₂]
    have hmid : b₁ ≤ a₂ := by
      rw [hb₁val, ha₂]
      exact sorted_getD_mono hs hib hi₂n
    linarith

lemma npQuantile_le_npQuantile {xs : List ℚ} (hs : xs.Sorted (· ≤ ·))
    {q1 q2 : ℚ} (hq0 : 0 ≤ q1) (hq12 : q1 ≤ q2) (hq1 : q2 ≤ 1) :
    npQuantile xs q1 ≤ npQuantile xs q2 := by
  rcases Nat.eq_zero_or_pos xs.length with hn0 | hnpos
  · rw [List.length_eq_zero.mp hn0, npQuantile_nil, npQuantile_nil]
  · have hn1 : (1 : ℚ) ≤ (xs.length : ℚ) := by exact_mod_cast hnpos
    have hnn : (0 : ℚ) ≤ (xs.length : ℚ) - 1 := by linarith
    rw [npQuantile_eq, npQuantile_eq]
    apply interp_mono xs hs
    · exact mul_nonneg hq0 hnn
    · exact mul_le_mul_of_nonneg_right hq12 hnn
    · calc q2 * ((xs.length : ℚ) - 1) ≤ 1 * ((xs.length : ℚ) - 1) :=
          mul_le_mul_of_nonneg_right hq1 hnn
        _ = (xs.length : ℚ) - 1 := one_mul _

lemma ale_var_values_sorted {ρ : Type} (data : List (ℚ × ρ)) :
    (ale_var_values data).Sorted (· ≤ ·) := by
  rw [ale_var_values, ale_sorted_data]
  exact List.pairwise_map.mpr (List.sorted_insertionSort _ _)

lemma qt_list_mem_bounds : ∀ q ∈ qt_list, 0 ≤ q ∧ q ≤ 1 := by
  intro q hq
  fin_cases hq <;> norm_num

lemma qt_list_pairwise : qt_list.Pairwise (· ≤ ·) := by
  norm_num [qt_list]

lemma ale_grid_sorted {ρ : Type} (data : List (ℚ × ρ)) :
    (ale_grid data).Sorted (· ≤ ·) := by
  rw [ale_grid]
  refine List.pairwise_map.mpr (List.Pairwise.imp_of_mem ?_ qt_list_pairwise)
  intro a b ha hb hab
  exact npQuantile_le_npQuantile (ale_var_values_sorted data)
    (qt_list_mem_bounds a ha).1 hab (qt_list_mem_bounds b hb).2

lemma ale_grid_length {ρ : Type} (data : List (ℚ × ρ)) :
    (ale_grid data).length = 11 := by
  simp [ale_grid, qt_list]

/-- C5: every assigned ALE bin index is at most `len(qt_list) - 2 = 9`
(hence lies in `[0, 9]`, bin indices being naturals), and every
observation's lower bin edge is at most its upper bin edge. -/
theorem ale_bin_bounds {ρ : Type} (data : List (ℚ × ρ)) (j : ℕ)
    (hj : j < (ale_idx data).length) :
    (ale_idx data).getD j 0 ≤ qt_list.length - 2 ∧
    (ale_var_lower data).getD j 0 ≤ (ale_var_upper data).getD j 0 := by
  have hidx : (ale_idx data).getD j 0 ≤ qt_list.length - 2 := by
    rw [ale_idx] at hj ⊢
    rw [List.getD_eq_getElem _ _ hj, List.getElem_map]
    exact min_le_right _ _
  refine ⟨hidx, ?_⟩
  have hlow : (ale_var_lower data).getD j 0 =
      (ale_grid data).getD ((ale_idx data).getD j 0) 0 := by
    rw [ale_var_lower]
    exact getD_map_of_lt _ _ _ hj 0
  have hup : (ale_var_upper data).getD j 0 =
      (ale_grid data).getD ((ale_idx data).getD j 0 + 1) 0 := by
    rw [ale_var_upper]
    exact getD_map_of_lt _ _ _ hj 0
  rw [hlow, hup]
  have h11 : qt_list.length = 11 := by simp [qt_list]
  have hle9 : (ale_idx data).getD j 0 ≤ 9 := by omega
  exact sorted_getD_mono (ale_grid_sorted data) (Nat.le_succ _)
    (by rw [ale_grid_length]; omega)

theorem ale_bin_bounds_witness :
    0 < (ale_idx dataW).length ∧
    ((ale_idx dataW).getD 0 0 ≤ qt_list.length - 2 ∧
     (ale_var_lower dataW).getD 0 0 ≤ (ale_var_upper dataW).getD 0 0) :=
  ⟨by simp [ale_idx, ale_var_values, ale_sorted_data, dataW,
      List.length_insertionSort],
   ale_bin_bounds dataW 0 (by simp [ale_idx, ale_var_values, ale_sorted_data,
      dataW, List.length_insertionSort])⟩

lemma length_flatMap_replicate (l : List ℚ) (m : ℕ) :
    (l.flatMap (fun x => List.replicate m x)).length = l.length * m := by
  rw [List.length_flatMap]
  simp only [Function.comp_def, List.length_replicate]
  exact sum_map_const _ _

lemma eq_of_pairwise_lt_of_mem_iff {κ : Type} [LinearOrder κ] {l₁ l₂ : List κ}
    (h₁ : l₁.Pairwise (· < ·)) (h₂ : l₂.Pairwise (· < ·))
    (hm : ∀ x, x ∈ l₁ ↔ x ∈ l₂) : l₁ = l₂ := by
  have hperm : List.Perm l₁ l₂ :=
    (List.perm_ext_iff_of_nodup (h₁.imp ne_of_lt) (h₂.imp ne_of_lt)).mpr hm
  exact List.eq_of_perm_of_sorted hperm (h₁.imp le_of_lt) (h₂.imp le_of_lt)

lemma pairwise_lex_flatMap (G : List ℕ) (ts : List ℚ)
    (hG : G.Pairwise (· < ·)) (hts : ts.Pairwise (· < ·)) :
    (G.flatMap (fun g => ts.map (fun t =>
      toLex ((g, t) : ℕ × ℚ)))).Pairwise (· < ·) := by
  induction G with
  | nil => simp
  | cons g G ih =>
      rw [List.flatMap_cons, List.pairwise_append]
      refine ⟨?_, ih hG.of_cons, ?_⟩
      · refine List.pairwise_map.mpr (hts.imp ?_)
        intro a b hab
        exact (Prod.Lex.lt_iff _ _).mpr (Or.inr ⟨rfl, hab⟩)
      · intro x hx y hy
        obtain ⟨t, -, rfl⟩ := List.mem_map.mp hx
        obtain ⟨g2, hg2, hy2⟩ := List.mem_flatMap.mp hy
        obtain ⟨t2, -, rfl⟩ := List.mem_map.mp hy2
        have hgg : g < g2 := (List.pairwise_cons.mp hG).1 g2 hg2
        exact (Prod.Lex.lt_iff _ _).mpr (Or.inl hgg)

lemma sorted_lt_nat_eq_range {G : List ℕ} {k : ℕ} (hp : G.Pairwise (· < ·))
    (hb : ∀ g ∈ G, g < k) (hl : G.length = k) : G = List.range k := by
  have hsub : G ⊆ List.range k := fun g hg => List.mem_range.mpr (hb g hg)
  have hsp : List.Subperm G (List.range k) :=
    List.Nodup.subperm (hp.imp ne_of_lt) hsub
  have hperm : List.Perm G (List.range k) :=
    hsp.perm_of_length_le (by rw [List.length_range, hl])
  exact List.eq_of_perm_of_sorted hperm (hp.imp le_of_lt)
    ((List.pairwise_lt_range k).imp le_of_lt)

lemma dropLast_eq_range_map {l : List ℚ} {k : ℕ} (hl : l.length = k + 1) :
    l.dropLast = (List.range k).map (fun i => l.getD i 0) := by
  apply List.ext_getElem
  · simp [List.length_dropLast, hl]
  · intro i h1 h2
    simp only [List.length_dropLast, hl, Nat.add_sub_cancel] at h1
    simp only [List.getElem_map, List.getElem_range, List.getElem_dropLast]
    rw [List.getD_eq_getElem _ _ (by omega)]

lemma zipWith_flatMap_blocks {α β γ δ : Type} (f : α → β → γ) (L : List δ)
    (B : δ → List α) (C : δ → List β)
    (h : ∀ d ∈ L, (B d).length = (C d).length) :
    List.zipWith f (L.flatMap B) (L.flatMap C) =
      L.flatMap (fun d => List.zipWith f (B d) (C d)) := by
  induction L with
  | nil => simp
  | cons d L ih =>
      rw [List.flatMap_cons, List.flatMap_cons, List.flatMap_cons,
          List.zipWith_append _ _ _ _ _ (h d (by simp)),
          ih (fun x hx => h x (by simp [hx]))]

lemma mem_zipWith_replicate {α β γ : Type} {f : α → β → γ} {l : List α}
    {n : ℕ} {c : β} {r : γ}
    (hr : r ∈ List.zipWith f l (List.replicate n c)) :
    ∃ y ∈ l, r = f y c := by
  induction l generalizing n with
  | nil => simp at hr
  | cons a l ih =>
      cases n with
      | zero => simp at hr
      | succ n =>
          rw [List.replicate_succ, List.zipWith_cons_cons] at hr
          rcases List.mem_cons.mp hr with h | h
          · exact ⟨a, by simp, h⟩
          · obtain ⟨y, hy, hyr⟩ := ih h
            exact ⟨y, by simp [hy], hyr⟩

lemma ale_idx_length {ρ : Type} (data : List (ℚ × ρ)) :
    (ale_idx data).length = (ale_sorted_data data).length := by
  simp [ale_idx, ale_var_values]

lemma ale_diff_rows_map_key {ρ : Type} (pf : List (ℚ × ρ) → ℚ → ℕ → ℚ)
    (expl : Explainer ρ) :
    (ale_diff_rows pf expl).map
        (fun r => toLex ((r.groups, r.times) : ℕ × ℚ)) =
      (List.range (ale_sorted_data expl.data).length).flatMap (fun j =>
        (ale_eval_times expl.label).map (fun t =>
          toLex (((ale_idx expl.data).getD j 0, t) : ℕ × ℚ))) := by
  rw [ale_diff_rows, List.map_flatMap]
  congr 1
  funext j
  rw [List.map_map]
  rfl

lemma sortedKeys_key_flatMap {ρ : Type} (expl : Explainer ρ) :
    sortedKeys ((List.range (ale_sorted_data expl.data).length).flatMap
      (fun j => (ale_eval_times expl.label).map (fun t =>
        toLex (((ale_idx expl.data).getD j 0, t) : ℕ × ℚ)))) =
    (sortedKeys (ale_idx expl.data)).flatMap (fun g =>
      (ale_eval_times expl.label).map (fun t =>
        toLex ((g, t) : ℕ × ℚ))) := by
  apply eq_of_pairwise_lt_of_mem_iff (pairwise_lt_sortedKeys _)
    (pairwise_lex_flatMap _ _ (pairwise_lt_sortedKeys _)
      (ale_eval_times_pairwise expl.label))
  intro x
  rw [mem_sortedKeys]
  simp only [List.mem_flatMap, List.mem_map, List.mem_range, mem_sortedKeys]
  constructor
  · rintro ⟨j, hj, t, ht, rfl⟩
    refine ⟨(ale_idx expl.data).getD j 0, ?_, t, ht, rfl⟩
    have hj2 : j < (ale_idx expl.data).length := by
      rw [ale_idx_length]; exact hj
    rw [List.getD_eq_getElem _ _ hj2]
    exact List.getElem_mem _
  · rintro ⟨g, hg, t, ht, rfl⟩
    obtain ⟨j, hj, rfl⟩ := List.mem_iff_getElem.mp hg
    refine ⟨j, by rw [← ale_idx_length]; exact hj, t, ht, ?_⟩
    rw [List.getD_eq_getElem _ _ hj]

lemma groupMean_eq_keys_map {α κ : Type} [LinearOrder κ] [DecidableEq κ]
    (key : α → κ) (val : α → ℚ) (xs : List α) :
    ∃ h : κ → κ × ℚ, (∀ k, (h k).1 = k) ∧
      groupMean key val xs = (sortedKeys (xs.map key)).map h :=
  ⟨_, fun _ => rfl, rfl⟩

lemma ale_body_shape {ρ : Type} (pf : List (ℚ × ρ) → ℚ → ℕ → ℚ)
    (expl : Explainer ρ) (T : List AleRow)
    (hok : ale_body pf expl = .ok T) :
    T.length = (qt_list.length - 1) * (ale_eval_times expl.label).length ∧
    ∀ r ∈ T, r.group_values = (ale_grid expl.data).getD r.groups 0 := by
  rw [ale_body] at hok
  by_cases hc : (ale_M pf expl).length = (ale_gv expl).length
  case neg =>
    rw [if_neg hc] at hok
    simp at hok
  rw [if_pos hc] at hok
  have hT : T = List.zipWith
      (fun m v => (⟨(ofLex m.1).1, (ofLex m.1).2, m.2, v⟩ : AleRow))
      (ale_M pf expl) (ale_gv expl) := (Except.ok.inj hok).symm
  set m := (ale_eval_times expl.label).length with hm
  have h11 : qt_list.length = 11 := by simp [qt_list]
  have hgvlen : (ale_gv expl).length = 10 * m := by
    rw [ale_gv, length_flatMap_replicate, List.length_dropLast, ale_grid_length]
  have hlen : T.length = (qt_list.length - 1) * m := by
    rw [hT, List.length_zipWith, hc, min_self, hgvlen, h11]
  refine ⟨hlen, ?_⟩
  rcases Nat.eq_zero_or_pos m with hm0 | hmpos
  · have hz : (ale_gv expl).length = 0 := by rw [hgvlen, hm0, mul_zero]
    have hgvnil : ale_gv expl = [] := List.length_eq_zero.mp hz
    rw [hT, hgvnil, List.zipWith_nil_right]
    intro r hr
    simp at hr
  · obtain ⟨h, hfst, hMeq⟩ := groupMean_eq_keys_map
      (fun r : DiffRow => toLex ((r.groups, r.times) : ℕ × ℚ))
      (fun r => r.pred) (ale_diff_rows pf expl)
    have hMflat : ale_M pf expl =
        (sortedKeys (ale_idx expl.data)).flatMap (fun g =>
          (ale_eval_times expl.label).map (fun t =>
            h (toLex ((g, t) : ℕ × ℚ)))) := by
      rw [ale_M, hMeq, ale_diff_rows_map_key, sortedKeys_key_flatMap,
          List.map_flatMap]
      congr 1
      funext g
      rw [List.map_map]
      rfl
    have hMlen : (ale_M pf expl).length =
        (sortedKeys (ale_idx expl.data)).length * m := by
      rw [hMflat, List.length_flatMap]
      simp only [Function.comp_def, List.length_map, ← hm]
      exact sum_map_const _ _
    have hGlen : (sortedKeys (ale_idx expl.data)).length = 10 := by
      have hc2 := hc
      rw [hMlen, hgvlen] at hc2
      exact Nat.eq_of_mul_eq_mul_right hmpos hc2
    have hGbound : ∀ g ∈ sortedKeys (ale_idx expl.data), g < 10 := by
      intro g hg
      have hg2 : g ∈ ale_idx expl.data := mem_sortedKeys.mp hg
      rw [ale_idx] at hg2
      obtain ⟨x, -, rfl⟩ := List.mem_map.mp hg2
      have h9 : qt_list.length - 2 = 9 := by rw [h11]
      calc min (argminAbs (ale_grid expl.data) x) (qt_list.length - 2) ≤
            qt_list.length - 2 := min_le_right _ _
        _ < 10 := by omega
    have hGrange : sortedKeys (ale_idx expl.data) = List.range 10 :=
      sorted_lt_nat_eq_range (pairwise_lt_sortedKeys _) hGbound hGlen
    have hgrid11 : (ale_grid expl.data).length = 10 + 1 := by
      rw [ale_grid_length]
    have hgv2 : ale_gv expl = (List.range 10).flatMap (fun g =>
        List.replicate m ((ale_grid expl.data).getD g 0)) := by
      rw [ale_gv, dropLast_eq_range_map hgrid11, List.flatMap_map, ← hm]
    rw [hT, hMflat, hGrange, hgv2,
        zipWith_flatMap_blocks _ _ _ _ (by intro d _; simp [← hm])]
    intro r hr
    obtain ⟨g, hg, hrg⟩ := List.mem_flatMap.mp hr
    obtain ⟨y, hy, rfl⟩ := mem_zipWith_replicate hrg
    obtain ⟨t, ht, rfl⟩ := List.mem_map.mp hy
    simp [hfst]

/-- C1: whenever `accumulated_local_effects_plots` returns a table for a
supported output type, that table has exactly `n_bins × n_eval_times` rows
(`n_bins = len(qt_list) - 1 = 10`), and each row's `group_values` entry is
the lower quantile breakpoint `grid_qt_values[groups]` of its bin.  The
prediction adapter `p` is the spec-modelled external collaborator. -/
theorem ale_result_shape {ρ : Type} (p : String → List (ℚ × ρ) → ℚ → ℕ → ℚ)
    (expl : Explainer ρ) (type : String) (T : List AleRow)
    (htype : type = "survival" ∨ type = "chf")
    (hok : accumulated_local_effects_plots p expl type = .ok T) :
    T.length = (qt_list.length - 1) * (ale_eval_times expl.label).length ∧
    ∀ r ∈ T, r.group_values = (ale_grid expl.data).getD r.groups 0 := by
  rcases htype with h | h
  · rw [h, accumulated_local_effects_plots, if_pos rfl] at hok
    exact ale_body_shape _ _ _ hok
  · rw [h, accumulated_local_effects_plots,
        if_neg (by decide), if_pos rfl] at hok
    exact ale_body_shape _ _ _ hok

lemma ale_witness_ok :
    accumulated_local_effects_plots pW explW "survival" = .ok [] := by
  rw [accumulated_local_effects_plots, if_pos rfl, ale_body]
  have htimes : ale_eval_times explW.label = [] := by
    simp [ale_eval_times, uniqueSorted, sortedKeys, explW, strideBy]
  have h1 : ale_M (pW "survival") explW = [] := by
    simp [ale_M, groupMean, sortedKeys, ale_diff_rows, ale_sorted_data, explW]
  have h2 : ale_gv explW = [] := by
    rw [ale_gv, htimes]
    simp
  rw [h1, h2]
  simp

theorem ale_result_shape_witness :
    (("survival" : String) = "survival" ∨ ("survival" : String) = "chf") ∧
    accumulated_local_effects_plots pW explW "survival" = .ok [] ∧
    (([] : List AleRow).length =
        (qt_list.length - 1) * (ale_eval_times explW.label).length ∧
      ∀ r ∈ ([] : List AleRow),
        r.group_values = (ale_grid explW.data).getD r.groups 0) :=
  ⟨Or.inl rfl, ale_witness_ok,
   ale_result_shape pW explW "survival" [] (Or.inl rfl) ale_witness_ok⟩

lemma hget_append_lt (h : Heap) (t : Table) {r : ℕ} (hr : r < h.length) :
    hget (h ++ [t]) r = hget h r := by
  rw [hget, hget, List.getD_eq_getElem _ _ (by simp; omega),
      List.getD_eq_getElem _ _ hr]
  exact List.getElem_append_left ..

lemma hget_set_ne (h : Heap) (s : ℕ) (t : Table) {r : ℕ} (hne : r ≠ s) :
    hget (hset h s t) r = hget h r := by
  rw [hget, hget, hset]
  by_cases hr : r < h.length
  · have hsr : s ≠ r := fun e => hne e.symm
    rw [List.getD_eq_getElem _ _ (by simpa using hr),
        List.getD_eq_getElem _ _ hr]
    exact List.getElem_set_of_ne hsr _ _
  · rw [List.getD_eq_default _ _ (by simp; omega),
        List.getD_eq_default _ _ (by omega)]

lemma pfi_perm_step_preserves (shuffle : String → ℕ → List ℚ → List ℚ)
    (fr : ℕ) (f : String) (k : ℕ) (h : Heap) (r : ℕ) (hr : r < h.length) :
    hget (pfi_perm_step shuffle fr f k h) r = hget h r ∧
    h.length ≤ (pfi_perm_step shuffle fr f k h).length := by
  constructor
  · rw [pfi_perm_step]
    rw [hget_set_ne _ _ _ (by simp [hset]; omega)]
    rw [hget_append_lt _ _ (by simp [hset]; omega)]
    rw [hget_set_ne _ _ _ (by simp; omega)]
    exact hget_append_lt _ _ hr
  · rw [pfi_perm_step]
    simp [hset]

lemma foldl_heap_preserves {X : Type} (F : Heap → X → Heap) (L : List X)
    (hF : ∀ (h : Heap) (x : X) (r : ℕ), r < h.length →
      hget (F h x) r = hget h r ∧ h.length ≤ (F h x).length) :
    ∀ (h : Heap) (r : ℕ), r < h.length →
      hget (L.foldl F h) r = hget h r ∧ h.length ≤ (L.foldl F h).length := by
  induction L with
  | nil => intro h r _; exact ⟨rfl, le_refl _⟩
  | cons x L ih =>
      intro h r hr
      rw [List.foldl_cons]
      obtain ⟨hg, hl⟩ := hF h x r hr
      obtain ⟨hg2, hl2⟩ := ih (F h x) r (lt_of_lt_of_le hr hl)
      exact ⟨by rw [hg2, hg], le_trans hl hl2⟩

lemma ale_heap_writes_preserves (sortF : Table → Table)
    (lowerCol upperCol : Table → List ℚ) (sf : String) (h : Heap)
    (data_ref : ℕ) (r : ℕ) (hr : r < h.length) :
    hget (ale_heap_writes sortF lowerCol upperCol sf data_ref h) r =
      hget h r := by
  rw [ale_heap_writes]
  rw [hget_set_ne _ _ _ (by simp [hset]; omega)]
  rw [hget_set_ne _ _ _ (by simp; omega)]
  rw [hget_append_lt _ _ (by simp; omega)]
  rw [hget_append_lt _ _ (by simp; omega)]
  exact hget_append_lt _ _ hr

/-- C8: neither compute call mutates its caller-owned input frame.  After
`permutation_feature_importance`'s loop the caller's `feats` frame is
unchanged (shuffles and column assignments hit only freshly allocated deep
copies), and after `accumulated_local_effects_plots`'s perturbation phase the
explainer's `data` frame is unchanged (only the two copies get their feature
column overwritten). -/
theorem compute_calls_leave_inputs_unchanged :
    (∀ (shuffle : String → ℕ → List ℚ → List ℚ) (n_perm : ℕ) (h : Heap)
        (feats_ref : ℕ), feats_ref < h.length →
      hget (permutation_feature_importance_heap shuffle feats_ref n_perm h)
          feats_ref = hget h feats_ref) ∧
    (∀ (sortF : Table → Table) (lowerCol upperCol : Table → List ℚ)
        (sf : String) (h : Heap) (data_ref : ℕ), data_ref < h.length →
      hget (ale_heap_writes sortF lowerCol upperCol sf data_ref h) data_ref =
        hget h data_ref) := by
  constructor
  · intro shuffle n_perm h feats_ref hr
    rw [permutation_feature_importance_heap]
    refine (foldl_heap_preserves _ _ ?_ h feats_ref hr).1
    intro h2 f r hr2
    exact foldl_heap_preserves _ _
      (fun h3 k r2 hr3 => pfi_perm_step_preserves shuffle feats_ref f k h3 r2 hr3)
      h2 r hr2
  · intro sortF lowerCol upperCol sf h data_ref hr
    exact ale_heap_writes_preserves sortF lowerCol upperCol sf h data_ref
      data_ref hr

theorem compute_calls_leave_inputs_unchanged_witness :
    ((0 < ([featsW] : Heap).length) ∧
      hget (permutation_feature_importance_heap shuffleW 0 2 [featsW]) 0 =
        hget [featsW] 0) ∧
    ((0 < ([featsW] : Heap).length) ∧
      hget (ale_heap_writes id (fun _ => []) (fun _ => []) "x" 0 [featsW]) 0 =
        hget [featsW] 0) :=
  ⟨⟨by decide,
    compute_calls_leave_inputs_unchanged.1 shuffleW 2 [featsW] 0 (by decide)⟩,
   ⟨by decide,
    compute_calls_leave_inputs_unchanged.2 id (fun _ => []) (fun _ => [])
      "x" [featsW] 0 (by decide)⟩⟩

end SurvGlobal
